import Mathlib

/-!
# Verification of the `rnltk` Porter stemmer (`src/stem.rs`)

A shallow embedding of the stemmer module of the `rnltk` repository.
Words are modelled as lists of bytes (`List Nat`, each element a `u8`
value); `&str` values in Rust are exactly their UTF-8 byte sequences, so
every Rust input corresponds to such a list.  Rust `usize` arithmetic
that can panic (underflowing subtraction, out-of-bounds indexing) is
modelled by `Option`: a step function returns `none` exactly when the
Rust code would panic.  Byte reads that are provably in bounds in every
reachable state (inside the pure predicates `is_consonant`,
`double_consonant`, `cvc`, `ends`) use `List.getD` with default `0`.
-/

namespace Rnltk

/-- The `RnltkError` enum from `src/error.rs` (only the variants; the
display strings are irrelevant to the claims). -/
inductive RnltkError where
  | sentimentTermExists : RnltkError
  | stemNonAscii : RnltkError
  | lsaOutOfBounds : RnltkError
deriving DecidableEq, Repr

deriving instance DecidableEq for Except

/-- The `Stemmer` struct from `src/stem.rs`: a byte buffer `bytes`, the
current effective length `bytes_length`, and the suffix cursor `offset`. -/
structure Stemmer where
  bytes : List Nat
  bytesLength : Nat
  offset : Nat
deriving DecidableEq, Repr

/-- `u8::to_ascii_lowercase`: map `A`–`Z` (65–90) to `a`–`z` by adding 32,
leave every other byte unchanged. -/
def toLowerByte (b : Nat) : Nat :=
  if 65 ≤ b ∧ b ≤ 90 then b + 32 else b

/-- `str::is_ascii`: every byte is below 128. -/
def isAsciiWord (word : List Nat) : Bool :=
  word.all (fun b => decide (b < 128))

/-- `Stemmer::new` (src/stem.rs lines 36–48): reject non-ASCII input,
otherwise lowercase the bytes and start with `offset = 0`. -/
def Stemmer.new (word : List Nat) : Except RnltkError Stemmer :=
  if isAsciiWord word then
    Except.ok { bytes := word.map toLowerByte,
                bytesLength := (word.map toLowerByte).length,
                offset := 0 }
  else
    Except.error RnltkError.stemNonAscii

/-- Read a byte of the buffer; in-bounds in every reachable state
(Rust would panic out of bounds, see `byteAt` for the guarded sites). -/
def Stemmer.byte (s : Stemmer) (index : Nat) : Nat :=
  s.bytes.getD index 0

/-- A guarded byte read: `none` models the Rust index-out-of-bounds panic. -/
def Stemmer.byteAt (s : Stemmer) (index : Nat) : Option Nat :=
  s.bytes.get? index

/-- Checked `usize` subtraction: `none` models the Rust underflow panic
(debug) / the subsequent wrapped-index panic (release). -/
def checkedSub (a b : Nat) : Option Nat :=
  if b ≤ a then some (a - b) else none

/-- `Stemmer::is_consonant` (lines 52–64): vowels `a e i o u` are not
consonants; `y` is a consonant at position 0 and otherwise a consonant
exactly when the previous position is not. -/
def Stemmer.isConsonant (s : Stemmer) : Nat → Bool
  | 0 =>
    let b := s.byte 0
    if b = 97 ∨ b = 101 ∨ b = 105 ∨ b = 111 ∨ b = 117 then false
    else true
  | i + 1 =>
    let b := s.byte (i + 1)
    if b = 97 ∨ b = 101 ∨ b = 105 ∨ b = 111 ∨ b = 117 then false
    else if b = 121 then ! s.isConsonant i
    else true

/-- One inner loop of `Stemmer::measure` (lines 81–89, 92–100, 103–111):
starting at `index`, scan forward while the consonant flag differs from
`target`; return the first position whose flag equals `target`, or `none`
when the scan reaches `offset` (the loop's `return n`).  The structural
fuel `rem` is `offset - index`, so `rem = 0` exactly when `index ≥ offset`. -/
def scanToAux (cons : Nat → Bool) (target : Bool) : Nat → Nat → Option Nat
  | 0, _ => none
  | rem + 1, index =>
    if cons index = target then some index
    else scanToAux cons target rem (index + 1)

/-- The inner loops of `Stemmer::measure`, with the fuel instantiated. -/
def scanTo (cons : Nat → Bool) (offset : Nat) (target : Bool) (index : Nat) : Option Nat :=
  scanToAux cons target (offset - index) index

/-- The outer loop of `Stemmer::measure` (lines 91–113): scan to the next
consonant (return `n` if none before `offset`), step past it and count it
(`n + 1`), scan to the next vowel (return the count if none), step past it
and repeat.  `fuel` only bounds the number of outer iterations; since
`index` strictly increases by at least 2 per iteration, `fuel = offset`
is never exhausted before `index ≥ offset` (at which point the result `n`
agrees with the loop). -/
def measureIter (cons : Nat → Bool) (offset : Nat) : Nat → Nat → Nat → Nat
  | 0, _, n => n
  | fuel + 1, index, n =>
    match scanTo cons offset true index with
    | none => n
    | some j =>
      match scanTo cons offset false (j + 1) with
      | none => n + 1
      | some k => measureIter cons offset fuel (k + 1) (n + 1)

/-- `Stemmer::measure` (lines 77–114): skip the leading consonant run
(returning 0 if the whole of `[0, offset)` is consonants), then run the
outer counting loop from just past the first vowel. -/
def Stemmer.measure (s : Stemmer) : Nat :=
  match scanTo s.isConsonant s.offset false 0 with
  | none => 0
  | some i => measureIter s.isConsonant s.offset s.offset (i + 1) 0

/-- `Stemmer::has_vowel` (lines 117–124): some position in `[0, offset)`
is not a consonant. -/
def Stemmer.hasVowel (s : Stemmer) : Bool :=
  (List.range s.offset).any (fun index => ! s.isConsonant index)

/-- `Stemmer::double_consonant` (lines 128–134). -/
def Stemmer.doubleConsonant (s : Stemmer) (index : Nat) : Bool :=
  if index < 1 then false
  else if s.byte index ≠ s.byte (index - 1) then false
  else s.isConsonant index

/-- `Stemmer::cvc` (lines 144–150). -/
def Stemmer.cvc (s : Stemmer) (index : Nat) : Bool :=
  if index < 2 ∨ ¬ s.isConsonant index ∨ s.isConsonant (index - 1) ∨
      ¬ s.isConsonant (index - 2) then false
  else ! (s.byte index = 119 ∨ s.byte index = 120 ∨ s.byte index = 121)

/-- `Stemmer::ends` (lines 153–161): the bytes `[bytes_length - len,
bytes_length)` equal the suffix `suf`. -/
def Stemmer.ends (s : Stemmer) (suf : List Nat) : Bool :=
  if suf.length > s.bytesLength then false
  else ((s.bytes.take s.bytesLength).drop (s.bytesLength - suf.length)) == suf

/-- `Stemmer::update_offset` (lines 163–167). -/
def Stemmer.updateOffset (s : Stemmer) (suf : List Nat) : Stemmer :=
  { s with offset := s.bytesLength - suf.length }

/-- The write loop of `Stemmer::set_to`: `bytes[pos + i] = rep[i]` for
each `i`. -/
def writeAt (l : List Nat) (pos : Nat) : List Nat → List Nat
  | [] => l
  | b :: rest => writeAt (l.set pos b) (pos + 1) rest

/-- `Stemmer::set_to` (lines 171–178): overwrite `[offset, offset + len)`
with the replacement and set `bytes_length = offset + len`.  The guard
models the Rust index panic when a write would fall outside the vector. -/
def Stemmer.setTo (s : Stemmer) (rep : List Nat) : Option Stemmer :=
  if s.offset + rep.length ≤ s.bytes.length then
    some { bytes := writeAt s.bytes s.offset rep,
           bytesLength := s.offset + rep.length,
           offset := s.offset }
  else none

/-- `Stemmer::replace` (lines 182–186): `set_to` when `measure > 0`,
otherwise leave the stemmer unchanged. -/
def Stemmer.replace (s : Stemmer) (rep : List Nat) : Option Stemmer :=
  if s.measure > 0 then s.setTo rep else some s

/-! Suffix and replacement literals, as byte lists (97 = `a` … 122 = `z`). -/

def sSses : List Nat := [115, 115, 101, 115]
def sIes : List Nat := [105, 101, 115]
def sI : List Nat := [105]
def sEed : List Nat := [101, 101, 100]
def sEd : List Nat := [101, 100]
def sIng : List Nat := [105, 110, 103]
def sAt : List Nat := [97, 116]
def sAte : List Nat := [97, 116, 101]
def sBl : List Nat := [98, 108]
def sBle : List Nat := [98, 108, 101]
def sIz : List Nat := [105, 122]
def sIze : List Nat := [105, 122, 101]
def sE : List Nat := [101]
def sY : List Nat := [121]
def sAtional : List Nat := [97, 116, 105, 111, 110, 97, 108]
def sTional : List Nat := [116, 105, 111, 110, 97, 108]
def sTion : List Nat := [116, 105, 111, 110]
def sEnci : List Nat := [101, 110, 99, 105]
def sEnce : List Nat := [101, 110, 99, 101]
def sAnci : List Nat := [97, 110, 99, 105]
def sAnce : List Nat := [97, 110, 99, 101]
def sIzer : List Nat := [105, 122, 101, 114]
def sBli : List Nat := [98, 108, 105]
def sAlli : List Nat := [97, 108, 108, 105]
def sAl : List Nat := [97, 108]
def sEntli : List Nat := [101, 110, 116, 108, 105]
def sEnt : List Nat := [101, 110, 116]
def sEli : List Nat := [101, 108, 105]
def sOusli : List Nat := [111, 117, 115, 108, 105]
def sOus : List Nat := [111, 117, 115]
def sIzation : List Nat := [105, 122, 97, 116, 105, 111, 110]
def sAtion : List Nat := [97, 116, 105, 111, 110]
def sAtor : List Nat := [97, 116, 111, 114]
def sAlism : List Nat := [97, 108, 105, 115, 109]
def sIveness : List Nat := [105, 118, 101, 110, 101, 115, 115]
def sIve : List Nat := [105, 118, 101]
def sFulness : List Nat := [102, 117, 108, 110, 101, 115, 115]
def sFul : List Nat := [102, 117, 108]
def sOusness : List Nat := [111, 117, 115, 110, 101, 115, 115]
def sAliti : List Nat := [97, 108, 105, 116, 105]
def sIviti : List Nat := [105, 118, 105, 116, 105]
def sBiliti : List Nat := [98, 105, 108, 105, 116, 105]
def sLogi : List Nat := [108, 111, 103, 105]
def sLog : List Nat := [108, 111, 103]
def sIcate : List Nat := [105, 99, 97, 116, 101]
def sIc : List Nat := [105, 99]
def sAtive : List Nat := [97, 116, 105, 118, 101]
def sNil : List Nat := []
def sAlize : List Nat := [97, 108, 105, 122, 101]
def sIciti : List Nat := [105, 99, 105, 116, 105]
def sIcal : List Nat := [105, 99, 97, 108]
def sNess : List Nat := [110, 101, 115, 115]
def sEr : List Nat := [101, 114]
def sAble : List Nat := [97, 98, 108, 101]
def sIble : List Nat := [105, 98, 108, 101]
def sAnt : List Nat := [97, 110, 116]
def sEment : List Nat := [101, 109, 101, 110, 116]
def sMent : List Nat := [109, 101, 110, 116]
def sIon : List Nat := [105, 111, 110]
def sOu : List Nat := [111, 117]
def sIsm : List Nat := [105, 115, 109]
def sIti : List Nat := [105, 116, 105]

/-- The plural-removal part of `Stemmer::step1ab` (lines 210–220):
handles `-sses`, `-ies` and a single trailing `s`. -/
def Stemmer.step1aPlural (s : Stemmer) : Option Stemmer :=
  match checkedSub s.bytesLength 1 with
  | none => none
  | some i =>
    match s.byteAt i with
    | none => none
    | some b =>
      if b = 115 then
        if s.ends sSses then
          let s := s.updateOffset sSses
          some { s with bytesLength := s.bytesLength - 2 }
        else if s.ends sIes then
          (s.updateOffset sIes).setTo sI
        else
          match checkedSub s.bytesLength 2 with
          | none => none
          | some j =>
            match s.byteAt j with
            | none => none
            | some b2 =>
              if b2 ≠ 115 then some { s with bytesLength := s.bytesLength - 1 }
              else some s
      else some s

/-- The restoration part of `Stemmer::step1ab` (lines 234–251), run after
the `-ed`/`-ing` suffix has been cut off: restore `at→ate`, `bl→ble`,
`iz→ize`, undo one letter of a double consonant (except `l`, `s`, `z`),
or append `e` after a short CVC stem. -/
def Stemmer.step1bRestore (s : Stemmer) : Option Stemmer :=
  if s.ends sAt then (s.updateOffset sAt).setTo sAte
  else if s.ends sBl then (s.updateOffset sBl).setTo sBle
  else if s.ends sIz then (s.updateOffset sIz).setTo sIze
  else
    match checkedSub s.bytesLength 1 with
    | none => none
    | some j =>
      if s.doubleConsonant j then
        let s := { s with bytesLength := s.bytesLength - 1 }
        match checkedSub s.bytesLength 1 with
        | none => none
        | some j2 =>
          match s.byteAt j2 with
          | none => none
          | some b3 =>
            if b3 = 108 ∨ b3 = 115 ∨ b3 = 122 then
              some { s with bytesLength := s.bytesLength + 1 }
            else some s
      else if s.measure = 1 ∧ s.cvc j then s.setTo sE
      else some s

/-- The `-eed`/`-ed`/`-ing` part of `Stemmer::step1ab` (lines 221–253). -/
def Stemmer.step1bPast (s : Stemmer) : Option Stemmer :=
  if s.ends sEed then
    let s := s.updateOffset sEed
    if s.measure > 0 then some { s with bytesLength := s.bytesLength - 1 }
    else some s
  else if s.ends sEd ∨ s.ends sIng then
    let s :=
      if s.ends sEd then s.updateOffset sEd
      else if s.ends sIng then s.updateOffset sIng
      else s
    if s.hasVowel then Stemmer.step1bRestore { s with bytesLength := s.offset }
    else some s
  else some s

/-- `Stemmer::step1ab` (lines 209–254): the plural part followed by the
`-eed`/`-ed`/`-ing` part. -/
def Stemmer.step1ab (s : Stemmer) : Option Stemmer :=
  s.step1aPlural.bind Stemmer.step1bPast

/-- `Stemmer::step1c` (lines 257–264): turn a terminal `y` into `i` when
the stem before it contains a vowel. -/
def Stemmer.step1c (s : Stemmer) : Option Stemmer :=
  if s.ends sY then
    let s := s.updateOffset sY
    if s.hasVowel then
      match checkedSub s.bytesLength 1 with
      | none => none
      | some j =>
        if j < s.bytes.length then some { s with bytes := s.bytes.set j 105 }
        else none
    else some s
  else some s

/-- `Stemmer::step2` (lines 269–366): collapse double suffixes, branching
on the second-to-last byte; every rewrite is gated by `replace`
(`measure > 0`). -/
def Stemmer.step2 (s : Stemmer) : Option Stemmer :=
  (checkedSub s.bytesLength 2).bind fun i =>
    (s.byteAt i).bind fun b =>
      if b = 97 then
        if s.ends sAtional then (s.updateOffset sAtional).replace sAte
        else if s.ends sTional then (s.updateOffset sTional).replace sTion
        else some s
      else if b = 99 then
        if s.ends sEnci then (s.updateOffset sEnci).replace sEnce
        else if s.ends sAnci then (s.updateOffset sAnci).replace sAnce
        else some s
      else if b = 101 then
        if s.ends sIzer then (s.updateOffset sIzer).replace sIze
        else some s
      else if b = 108 then
        if s.ends sBli then (s.updateOffset sBli).replace sBle
        else if s.ends sAlli then (s.updateOffset sAlli).replace sAl
        else if s.ends sEntli then (s.updateOffset sEntli).replace sEnt
        else if s.ends sEli then (s.updateOffset sEli).replace sE
        else if s.ends sOusli then (s.updateOffset sOusli).replace sOus
        else some s
      else if b = 111 then
        if s.ends sIzation then (s.updateOffset sIzation).replace sIze
        else if s.ends sAtion then (s.updateOffset sAtion).replace sAte
        else if s.ends sAtor then (s.updateOffset sAtor).replace sAte
        else some s
      else if b = 115 then
        if s.ends sAlism then (s.updateOffset sAlism).replace sAl
        else if s.ends sIveness then (s.updateOffset sIveness).replace sIve
        else if s.ends sFulness then (s.updateOffset sFulness).replace sFul
        else if s.ends sOusness then (s.updateOffset sOusness).replace sOus
        else some s
      else if b = 116 then
        if s.ends sAliti then (s.updateOffset sAliti).replace sAl
        else if s.ends sIviti then (s.updateOffset sIviti).replace sIve
        else if s.ends sBiliti then (s.updateOffset sBiliti).replace sBle
        else some s
      else if b = 103 then
        if s.ends sLogi then (s.updateOffset sLogi).replace sLog
        else some s
      else some s

/-- `Stemmer::step3` (lines 369–406): `-ic-`, `-ful`, `-ness` and
similar suffixes, branching on the last byte. -/
def Stemmer.step3 (s : Stemmer) : Option Stemmer :=
  (checkedSub s.bytesLength 1).bind fun i =>
    (s.byteAt i).bind fun b =>
      if b = 101 then
        if s.ends sIcate then (s.updateOffset sIcate).replace sIc
        else if s.ends sAtive then (s.updateOffset sAtive).replace sNil
        else if s.ends sAlize then (s.updateOffset sAlize).replace sAl
        else some s
      else if b = 105 then
        if s.ends sIciti then (s.updateOffset sIciti).replace sIc
        else some s
      else if b = 108 then
        if s.ends sIcal then (s.updateOffset sIcal).replace sIc
        else if s.ends sFul then (s.updateOffset sFul).replace sNil
        else some s
      else if b = 115 then
        if s.ends sNess then (s.updateOffset sNess).replace sNil
        else some s
      else some s

/-- The suffix match of `Stemmer::step4` (lines 410–509): the branch on
the second-to-last byte `b`; returns the stemmer (with the committed
offset of a matched suffix) together with `byte_was_matched`. -/
def Stemmer.step4Match (s : Stemmer) (b : Nat) : Stemmer × Bool :=
  if b = 97 then
    if s.ends sAl then (s.updateOffset sAl, true) else (s, false)
  else if b = 99 then
    if s.ends sAnce then (s.updateOffset sAnce, true)
    else if s.ends sEnce then (s.updateOffset sEnce, true)
    else (s, false)
  else if b = 101 then
    if s.ends sEr then (s.updateOffset sEr, true) else (s, false)
  else if b = 105 then
    if s.ends sIc then (s.updateOffset sIc, true) else (s, false)
  else if b = 108 then
    if s.ends sAble then (s.updateOffset sAble, true)
    else if s.ends sIble then (s.updateOffset sIble, true)
    else (s, false)
  else if b = 110 then
    if s.ends sAnt then (s.updateOffset sAnt, true)
    else if s.ends sEment then (s.updateOffset sEment, true)
    else if s.ends sMent then (s.updateOffset sMent, true)
    else if s.ends sEnt then (s.updateOffset sEnt, true)
    else (s, false)
  else if b = 111 then
    if s.ends sIon then
      let t := s.updateOffset sIon
      if t.offset > 0 ∧ (t.byte (t.offset - 1) = 115 ∨ t.byte (t.offset - 1) = 116) then
        (t, true)
      else (t, false)
    else if s.ends sOu then (s.updateOffset sOu, true)
    else (s, false)
  else if b = 115 then
    if s.ends sIsm then (s.updateOffset sIsm, true) else (s, false)
  else if b = 116 then
    if s.ends sAte then (s.updateOffset sAte, true)
    else if s.ends sIti then (s.updateOffset sIti, true)
    else (s, false)
  else if b = 117 then
    if s.ends sOus then (s.updateOffset sOus, true) else (s, false)
  else if b = 118 then
    if s.ends sIve then (s.updateOffset sIve, true) else (s, false)
  else if b = 122 then
    if s.ends sIze then (s.updateOffset sIze, true) else (s, false)
  else (s, false)

/-- `Stemmer::step4` (lines 409–513): run the suffix match and, when a
suffix was matched and `measure > 1`, truncate the buffer to the
committed offset. -/
def Stemmer.step4 (s : Stemmer) : Option Stemmer :=
  match checkedSub s.bytesLength 2 with
  | none => none
  | some i =>
    match s.byteAt i with
    | none => none
    | some b =>
      let matched : Stemmer × Bool := s.step4Match b
      if matched.2 ∧ matched.1.measure > 1 then
        some { matched.1 with bytesLength := matched.1.offset }
      else some matched.1

/-- `Stemmer::step5` (lines 517–528): drop a final `e` when the measure
allows it, then collapse a final double `l` when `measure > 1`. -/
def Stemmer.step5 (s : Stemmer) : Option Stemmer :=
  let s := { s with offset := s.bytesLength }
  match checkedSub s.bytesLength 1 with
  | none => none
  | some i =>
    match s.byteAt i with
    | none => none
    | some b =>
      let s :=
        if b = 101 then
          let a := s.measure
          if a > 1 ∨ (a = 1 ∧ ¬ s.cvc (s.bytesLength - 2)) then
            { s with bytesLength := s.bytesLength - 1 }
          else s
        else s
      match checkedSub s.bytesLength 1 with
      | none => none
      | some j =>
        match s.byteAt j with
        | none => none
        | some b2 =>
          if b2 = 108 ∧ s.doubleConsonant j ∧ s.measure > 1 then
            some { s with bytesLength := s.bytesLength - 1 }
          else some s

/-- `Stemmer::get` (lines 531–533): the first `bytes_length` bytes of the
buffer. -/
def Stemmer.result (s : Stemmer) : List Nat :=
  s.bytes.take s.bytesLength

/-- The free function `stem::get` (lines 536–549).  Words of byte length
at most 2 are returned unchanged; otherwise the five-step pipeline runs.
The outer `Option` models Rust panics, the inner `Except` the returned
`Result`. -/
def stemGet (word : List Nat) : Option (Except RnltkError (List Nat)) :=
  if word.length > 2 then
    match Stemmer.new word with
    | Except.error e => some (Except.error e)
    | Except.ok s0 =>
      (((((s0.step1ab.bind Stemmer.step1c).bind Stemmer.step2).bind
        Stemmer.step3).bind Stemmer.step4).bind Stemmer.step5).map
        (fun s6 => Except.ok s6.result)
  else some (Except.ok word)

/-- The chain of intermediate states produced by running the given step
functions in sequence from `s`; the chain stops early if a step panics
(`none`).  Used to state invariants "at every pipeline stage". -/
def statesFrom (s : Stemmer) : List (Stemmer → Option Stemmer) → List Stemmer
  | [] => [s]
  | f :: fs =>
    s :: (match f s with
          | none => []
          | some t => statesFrom t fs)

/-- The five pipeline steps of `stem::get`, in source order. -/
def pipelineSteps : List (Stemmer → Option Stemmer) :=
  [Stemmer.step1ab, Stemmer.step1c, Stemmer.step2, Stemmer.step3,
   Stemmer.step4, Stemmer.step5]

/-- Every buffer state observable at a step boundary while `stem::get`
processes `word` (empty when construction fails). -/
def pipelineStates (word : List Nat) : List Stemmer :=
  match Stemmer.new word with
  | Except.error _ => []
  | Except.ok s0 => statesFrom s0 pipelineSteps

/-- Spec-side counting for the measure: over the positions `v, v + 1, …,
v + rem - 1`, count those carrying a vowel directly followed by a
consonant. -/
def tcountAux (cons : Nat → Bool) : Nat → Nat → Nat
  | 0, _ => 0
  | rem + 1, v =>
    (if cons v = false ∧ cons (v + 1) = true then 1 else 0) + tcountAux cons rem (v + 1)

/-- The number of positions `x ∈ [v, offset - 1)` where a vowel is
directly followed by a consonant. -/
def tcount (cons : Nat → Bool) (offset v : Nat) : Nat :=
  tcountAux cons (offset - 1 - v) v

/-- The spec's description of the measure: decompose `[0, offset)` into
alternating blocks `<C>^? (VC)^m <V>^?`; `m` is the number of completed
(vowel-run, consonant-run) pairs.  Each completed pair ends at the unique
position where a consonant directly follows a vowel, so `m` is the number
of such adjacencies. -/
def specMeasure (cons : Nat → Bool) (offset : Nat) : Nat :=
  tcount cons offset 0

/-- A fuelled variant of `Stemmer::is_consonant`, used to express that the
recursion through context-sensitive `y` is well-founded: the index
strictly decreases, so fuel `index + 1` always suffices. -/
def isConsonantFuel (s : Stemmer) : Nat → Nat → Option Bool
  | 0, _ => none
  | fuel + 1, index =>
    let b := s.byte index
    if b = 97 ∨ b = 101 ∨ b = 105 ∨ b = 111 ∨ b = 117 then some false
    else if b = 121 then
      match index with
      | 0 => some true
      | i + 1 => (isConsonantFuel s fuel i).map (fun c => !c)
    else some true

/-- A byte is "lowercase ASCII" in the sense of the spec: in the ASCII
range and fixed by ASCII lowercasing (no uppercase letter). -/
def lowerByteOk (b : Nat) : Prop :=
  b < 128 ∧ toLowerByte b = b

instance decLowerByteOk (b : Nat) : Decidable (lowerByteOk b) :=
  decidable_of_iff (b < 128 ∧ toLowerByte b = b) Iff.rfl

/-- Every byte of the buffer (the whole vector, not only the live
prefix) is lowercase ASCII. -/
def lowerInv (s : Stemmer) : Prop :=
  ∀ b ∈ s.bytes, lowerByteOk b

/-- The facts every pipeline step preserves: the underlying vector keeps
its length, the live length never grows, and lowercase-ASCII content is
preserved. -/
def stepOk (s t : Stemmer) : Prop :=
  t.bytes.length = s.bytes.length ∧ t.bytesLength ≤ s.bytesLength ∧
    (lowerInv s → lowerInv t)

/-- `stepOk` holds for every `some` outcome of an optional result. -/
def stepPost (s : Stemmer) (o : Option Stemmer) : Prop :=
  ∀ t, o = some t → stepOk s t

/-- What the step4 suffix match guarantees: buffer and live length are
untouched, and a successful match commits an offset within the live
length. -/
def matchOk (s : Stemmer) (m : Stemmer × Bool) : Prop :=
  m.1.bytes = s.bytes ∧ m.1.bytesLength = s.bytesLength ∧
    (m.2 = true → m.1.offset ≤ s.bytesLength)

/-! Concrete words used by the claims, as UTF-8 byte lists. -/

def wPencils : List Nat := [112, 101, 110, 99, 105, 108, 115]
def wPencil : List Nat := [112, 101, 110, 99, 105, 108]
def wCaresses : List Nat := [99, 97, 114, 101, 115, 115, 101, 115]
def wCaress : List Nat := [99, 97, 114, 101, 115, 115]
def wPonies : List Nat := [112, 111, 110, 105, 101, 115]
def wPoni : List Nat := [112, 111, 110, 105]
def wTies : List Nat := [116, 105, 101, 115]
def wTi : List Nat := [116, 105]
def wCats : List Nat := [99, 97, 116, 115]
def wCat : List Nat := [99, 97, 116]
def wFeed : List Nat := [102, 101, 101, 100]
def wAgreed : List Nat := [97, 103, 114, 101, 101, 100]
def wAgree : List Nat := [97, 103, 114, 101, 101]
def wAgre : List Nat := [97, 103, 114, 101]
def wDisabled : List Nat := [100, 105, 115, 97, 98, 108, 101, 100]
def wDisable : List Nat := [100, 105, 115, 97, 98, 108, 101]
def wDisabl : List Nat := [100, 105, 115, 97, 98, 108]
def wMatting : List Nat := [109, 97, 116, 116, 105, 110, 103]
def wMat : List Nat := [109, 97, 116]
def wMating : List Nat := [109, 97, 116, 105, 110, 103]
def wMate : List Nat := [109, 97, 116, 101]
def wMeeting : List Nat := [109, 101, 101, 116, 105, 110, 103]
def wMeet : List Nat := [109, 101, 101, 116]
def wMilling : List Nat := [109, 105, 108, 108, 105, 110, 103]
def wMill : List Nat := [109, 105, 108, 108]
def wMessing : List Nat := [109, 101, 115, 115, 105, 110, 103]
def wMess : List Nat := [109, 101, 115, 115]
def wMeetings : List Nat := [109, 101, 101, 116, 105, 110, 103, 115]
def wIes : List Nat := [105, 101, 115]
def wEbbed : List Nat := [101, 98, 98, 101, 100]
def wEAcute : List Nat := [195, 169]

/-! ## Theorems for the claims -/

/-- **C1** (code bug): the claim says that once construction succeeds
(ASCII input, more than 2 bytes) every pipeline step is total and
`stem::get` returns `Ok`.  The ASCII word "ies" (3 bytes) refutes this on
the code: step1ab rewrites the buffer to the single byte "i"
(`bytes_length = 1`), and step2 then computes `bytes_length - 2`, a
`usize` underflow — `stem::get("ies")` panics (modelled by `none`)
instead of returning `Ok`. -/
theorem c1_get_panics_on_ies : stemGet wIes = none := by decide

/-- **C2** counterexample: the claim says every word containing a
non-ASCII byte fails with `StemNonAscii` regardless of length, but the
two-byte non-ASCII word "é" (bytes `[195, 169]`) takes the `len ≤ 2`
shortcut and is returned `Ok` unchanged. -/
theorem c2_counterexample_two_byte_non_ascii :
    stemGet wEAcute = some (Except.ok wEAcute) ∧ ¬ (∀ b ∈ wEAcute, b < 128) := by
  decide

/-- **C2** amended: for every word of byte length greater than 2 that
contains a non-ASCII byte, `stem::get` returns the error `StemNonAscii`
(and produces no other output). -/
theorem c2_amended_long_non_ascii_rejected (w : List Nat)
    (hlen : 2 < w.length) (hb : ∃ b ∈ w, 128 ≤ b) :
    stemGet w = some (Except.error RnltkError.stemNonAscii) := by
  obtain ⟨b, hmem, hge⟩ := hb
  have hascii : isAsciiWord w = false := by
    simp only [isAsciiWord, List.all_eq_false, decide_eq_true_eq]
    exact ⟨b, hmem, by omega⟩
  unfold stemGet
  rw [if_pos hlen]
  unfold Stemmer.new
  rw [hascii]
  simp

/-- Witness for **C2** amended at the 3-byte non-ASCII word "éa". -/
theorem c2_amended_long_non_ascii_rejected_witness :
    (2 < ([195, 169, 97] : List Nat).length ∧
        (∃ b ∈ ([195, 169, 97] : List Nat), 128 ≤ b)) ∧
      stemGet [195, 169, 97] = some (Except.error RnltkError.stemNonAscii) :=
  ⟨⟨by decide, by decide⟩,
    c2_amended_long_non_ascii_rejected [195, 169, 97] (by decide) (by decide)⟩

/-- **C3** counterexample: the claim says `stem::get` maps "agreed" to
`Ok "agree"` and "disabled" to `Ok "disable"`; the code actually removes
the final `e` in step5 (measure 1 without CVC for "agree", measure 2 for
"disable"), producing "agre" and "disabl". -/
theorem c3_counterexample_agreed_disabled :
    stemGet wAgreed = some (Except.ok wAgre) ∧
      stemGet wDisabled = some (Except.ok wDisabl) ∧
      wAgre ≠ wAgree ∧ wDisabl ≠ wDisable := by
  decide

/-- **C3** amended: the fourteen literal cases with the outputs the code
actually produces — "agreed" stems to "agre" and "disabled" to "disabl";
the other twelve are as the claim stated them. -/
theorem c3_amended_literal_cases :
    stemGet wPencils = some (Except.ok wPencil) ∧
      stemGet wCaresses = some (Except.ok wCaress) ∧
      stemGet wPonies = some (Except.ok wPoni) ∧
      stemGet wTies = some (Except.ok wTi) ∧
      stemGet wCats = some (Except.ok wCat) ∧
      stemGet wFeed = some (Except.ok wFeed) ∧
      stemGet wAgreed = some (Except.ok wAgre) ∧
      stemGet wDisabled = some (Except.ok wDisabl) ∧
      stemGet wMatting = some (Except.ok wMat) ∧
      stemGet wMating = some (Except.ok wMate) ∧
      stemGet wMeeting = some (Except.ok wMeet) ∧
      stemGet wMilling = some (Except.ok wMill) ∧
      stemGet wMessing = some (Except.ok wMess) ∧
      stemGet wMeetings = some (Except.ok wMeet) :=
  ⟨by decide, by decide, by decide, by decide, by decide, by decide, by decide,
    by decide, by decide, by decide, by decide, by decide, by decide, by decide⟩

/-- **C4** counterexample: the claim says `boundary ≤ length` holds at
every point during stemming, but after step1ab on "ebbed" (the double
consonant shrink leaves `bytes_length = 2` while the committed offset of
the removed "ed" suffix is still 3) the pipeline is in a state with
`offset = 3 > bytes_length = 2`. -/
theorem c4_counterexample_ebbed :
    (⟨wEbbed, 2, 3⟩ : Stemmer) ∈ pipelineStates wEbbed ∧ ¬ ((3 : Nat) ≤ 2) := by
  decide

/-- **C5** (confirmed): every ASCII word of byte length at most 2 is
returned `Ok` and completely unchanged (no lowercasing). -/
theorem c5_short_ascii_unchanged (w : List Nat) (hlen : w.length ≤ 2)
    (_hascii : ∀ b ∈ w, b < 128) : stemGet w = some (Except.ok w) := by
  unfold stemGet
  rw [if_neg (by omega)]

/-- Witness for **C5** at the word "Ti" (uppercase preserved). -/
theorem c5_short_ascii_unchanged_witness :
    (([84, 105] : List Nat).length ≤ 2 ∧ (∀ b ∈ ([84, 105] : List Nat), b < 128)) ∧
      stemGet [84, 105] = some (Except.ok [84, 105]) :=
  ⟨⟨by decide, by decide⟩, c5_short_ascii_unchanged [84, 105] (by decide) (by decide)⟩

/-- **C8** counterexample: the claim says `stem::get` is idempotent on the
spec's listed outputs, "agree" among them; but
`stem::get("agree") = Ok "agre" ≠ Ok "agree"`. -/
theorem c8_counterexample_agree_not_fixed :
    stemGet wAgree = some (Except.ok wAgre) ∧ wAgre ≠ wAgree := by
  decide

/-- **C8** amended: `stem::get` is idempotent on the listed outputs except
"agree" and "disable" (which are not outputs the code produces); those two
map to "agre" and "disabl" respectively. -/
theorem c8_amended_idempotence_cases :
    stemGet wPencil = some (Except.ok wPencil) ∧
      stemGet wCaress = some (Except.ok wCaress) ∧
      stemGet wPoni = some (Except.ok wPoni) ∧
      stemGet wTi = some (Except.ok wTi) ∧
      stemGet wCat = some (Except.ok wCat) ∧
      stemGet wFeed = some (Except.ok wFeed) ∧
      stemGet wMat = some (Except.ok wMat) ∧
      stemGet wMate = some (Except.ok wMate) ∧
      stemGet wMeet = some (Except.ok wMeet) ∧
      stemGet wMill = some (Except.ok wMill) ∧
      stemGet wMess = some (Except.ok wMess) ∧
      stemGet wAgree = some (Except.ok wAgre) ∧
      stemGet wDisable = some (Except.ok wDisabl) :=
  ⟨by decide, by decide, by decide, by decide, by decide, by decide, by decide,
    by decide, by decide, by decide, by decide, by decide, by decide⟩

/-! ### The measure refinement (claim C7) -/

/-- A boolean that differs from `target` equals `! target`. -/
theorem bool_eq_not_of_ne {a b : Bool} (h : a ≠ b) : a = ! b := by
  cases a <;> cases b <;> simp_all

/-- A successful inner scan returns the least position at or after `index`
whose consonant flag equals `target`, and it lies before `index + rem`. -/
theorem scanToAux_some (cons : Nat → Bool) (target : Bool) :
    ∀ rem index j, scanToAux cons target rem index = some j →
      index ≤ j ∧ j < index + rem ∧ cons j = target ∧
        (∀ k, index ≤ k → k < j → cons k = ! target) := by
  intro rem
  induction rem with
  | zero => intro index j h; exact absurd h (by simp [scanToAux])
  | succ rem ih =>
    intro index j h
    rw [scanToAux] at h
    by_cases hc : cons index = target
    · rw [if_pos hc] at h
      obtain rfl : index = j := by simpa using h
      exact ⟨le_rfl, by omega, hc,
        fun k hk hk' => absurd (lt_of_le_of_lt hk hk') (lt_irrefl _)⟩
    · rw [if_neg hc] at h
      obtain ⟨h1, h2, h3, h4⟩ := ih (index + 1) j h
      refine ⟨by omega, by omega, h3, fun k hk hk' => ?_⟩
      rcases Nat.eq_or_lt_of_le hk with heq | hlt
      · rw [← heq]; exact bool_eq_not_of_ne hc
      · exact h4 k hlt hk'

/-- A failed inner scan means no position in the scanned range carries the
target flag. -/
theorem scanToAux_none (cons : Nat → Bool) (target : Bool) :
    ∀ rem index, scanToAux cons target rem index = none →
      ∀ k, index ≤ k → k < index + rem → cons k = ! target := by
  intro rem
  induction rem with
  | zero => intro index _ k hk hk'; omega
  | succ rem ih =>
    intro index h k hk hk'
    rw [scanToAux] at h
    by_cases hc : cons index = target
    · rw [if_pos hc] at h; exact absurd h (by simp)
    · rw [if_neg hc] at h
      rcases Nat.eq_or_lt_of_le hk with heq | hlt
      · rw [← heq]; exact bool_eq_not_of_ne hc
      · exact ih (index + 1) h k hlt (by omega)

/-- `scanTo` variant of `scanToAux_some`, with the bound `offset`. -/
theorem scanTo_some (cons : Nat → Bool) (offset : Nat) (target : Bool)
    (index j : Nat) (h : scanTo cons offset target index = some j) :
    index ≤ j ∧ j < offset ∧ cons j = target ∧
      (∀ k, index ≤ k → k < j → cons k = ! target) := by
  obtain ⟨h1, h2, h3, h4⟩ := scanToAux_some cons target (offset - index) index j h
  exact ⟨h1, by omega, h3, h4⟩

/-- `scanTo` variant of `scanToAux_none`. -/
theorem scanTo_none (cons : Nat → Bool) (offset : Nat) (target : Bool)
    (index : Nat) (h : scanTo cons offset target index = none) :
    ∀ k, index ≤ k → k < offset → cons k = ! target := by
  intro k hk hk'
  exact scanToAux_none cons target (offset - index) index h k hk (by omega)

/-- `tcountAux` vanishes on a range with no vowel-to-consonant adjacency. -/
theorem tcountAux_zero (cons : Nat → Bool) :
    ∀ rem v, (∀ k, v ≤ k → k < v + rem → ¬ (cons k = false ∧ cons (k + 1) = true)) →
      tcountAux cons rem v = 0 := by
  intro rem
  induction rem with
  | zero => intro v _; rfl
  | succ rem ih =>
    intro v h
    simp only [tcountAux]
    rw [if_neg (h v le_rfl (by omega)),
      ih (v + 1) (fun k hk hk' => h k (by omega) (by omega))]

/-- `tcount` vanishes from `v` on when no adjacency lies at or after `v`. -/
theorem tcount_zero (cons : Nat → Bool) (offset v : Nat)
    (h : ∀ k, v ≤ k → k + 1 < offset → ¬ (cons k = false ∧ cons (k + 1) = true)) :
    tcount cons offset v = 0 :=
  tcountAux_zero cons (offset - 1 - v) v (fun k hk hk' => h k hk (by omega))

/-- `tcount` is zero when the range `[v, offset - 1)` is empty. -/
theorem tcount_big (cons : Nat → Bool) (offset v : Nat) (h : ¬ (v + 1 < offset)) :
    tcount cons offset v = 0 := by
  unfold tcount
  have hz : offset - 1 - v = 0 := by omega
  rw [hz]
  rfl

/-- Stepping `tcount` over a position with no adjacency. -/
theorem tcount_skip (cons : Nat → Bool) (offset v : Nat)
    (h : ¬ (cons v = false ∧ cons (v + 1) = true)) :
    tcount cons offset v = tcount cons offset (v + 1) := by
  by_cases hlt : v + 1 < offset
  · unfold tcount
    have h1 : offset - 1 - v = (offset - 1 - (v + 1)) + 1 := by omega
    rw [h1]
    simp only [tcountAux]
    rw [if_neg h, Nat.zero_add]
  · rw [tcount_big cons offset v hlt, tcount_big cons offset (v + 1) (by omega)]

/-- Stepping `tcount` over a vowel-to-consonant adjacency. -/
theorem tcount_trans_at (cons : Nat → Bool) (offset v : Nat)
    (hlt : v + 1 < offset) (h : cons v = false ∧ cons (v + 1) = true) :
    tcount cons offset v = 1 + tcount cons offset (v + 1) := by
  unfold tcount
  have h1 : offset - 1 - v = (offset - 1 - (v + 1)) + 1 := by omega
  rw [h1]
  simp only [tcountAux]
  rw [if_pos h]

/-- `tcount` is unchanged across a stretch with no adjacency. -/
theorem tcount_eq_of_no_trans (cons : Nat → Bool) (offset : Nat) :
    ∀ w v, v ≤ w →
      (∀ x, v ≤ x → x < w → ¬ (cons x = false ∧ cons (x + 1) = true)) →
      tcount cons offset v = tcount cons offset w := by
  intro w
  induction w with
  | zero =>
    intro v hv _
    obtain rfl : v = 0 := by omega
    rfl
  | succ w ih =>
    intro v hv h
    rcases Nat.eq_or_lt_of_le hv with heq | hlt
    · rw [heq]
    · rw [ih v (by omega) (fun x hx hx' => h x hx (by omega)),
        tcount_skip cons offset w (h w (by omega) (by omega))]

/-- The outer counting loop of `measure`, started just after a vowel at
`v`, adds exactly the number of vowel-to-consonant adjacencies from `v`
on.  The fuel hypothesis `offset ≤ fuel + v + 1` is maintained because the
loop index strictly increases by at least 2 per iteration, so the fuel of
`measure` itself (`offset`) is never exhausted early. -/
theorem measureIter_eq_tcount (cons : Nat → Bool) (offset : Nat) :
    ∀ fuel v n, cons v = false → v < offset → offset ≤ fuel + v + 1 →
      measureIter cons offset fuel (v + 1) n = n + tcount cons offset v := by
  intro fuel
  induction fuel with
  | zero =>
    intro v n _ _ hfuel
    rw [tcount_big cons offset v (by omega)]
    rfl
  | succ fuel ih =>
    intro v n hv hvlt hfuel
    cases hscan : scanTo cons offset true (v + 1) with
    | none =>
      have hall := scanTo_none cons offset true (v + 1) hscan
      have hz : tcount cons offset v = 0 := by
        refine tcount_zero cons offset v ?_
        intro k hk hk'
        rintro ⟨-, hk1⟩
        have hb := hall (k + 1) (by omega) hk'
        simp_all
      rw [hz]
      simp only [measureIter, hscan]
      omega
    | some j =>
      obtain ⟨hj1, hj2, hj3, hj4⟩ := scanTo_some cons offset true (v + 1) j hscan
      have hconsv : ∀ x, v ≤ x → x < j → cons x = false := by
        intro x hx hx'
        rcases Nat.eq_or_lt_of_le hx with heq | hlt
        · rw [← heq]; exact hv
        · have := hj4 x hlt hx'; simp_all
      have hj1' : j - 1 + 1 = j := by omega
      have hstep : tcount cons offset v = 1 + tcount cons offset j := by
        have hchain : tcount cons offset v = tcount cons offset (j - 1) := by
          refine tcount_eq_of_no_trans cons offset (j - 1) v (by omega) ?_
          intro x hx hx'
          rintro ⟨-, hx1⟩
          have := hconsv (x + 1) (by omega) (by omega)
          simp_all
        have htr := tcount_trans_at cons offset (j - 1) (by omega)
          ⟨hconsv (j - 1) (by omega) (by omega), by rw [hj1']; exact hj3⟩
        rw [hj1'] at htr
        rw [hchain, htr]
      cases hscan2 : scanTo cons offset false (j + 1) with
      | none =>
        have hall2 := scanTo_none cons offset false (j + 1) hscan2
        have hz : tcount cons offset j = 0 := by
          refine tcount_zero cons offset j ?_
          intro k hk hk'
          rintro ⟨hk0, -⟩
          rcases Nat.eq_or_lt_of_le hk with heq | hlt
          · rw [heq] at hj3; simp_all
          · have := hall2 k hlt (by omega); simp_all
        simp only [measureIter, hscan, hscan2]
        omega
      | some k =>
        obtain ⟨hk1, hk2, hk3, hk4⟩ := scanTo_some cons offset false (j + 1) k hscan2
        have hjk : tcount cons offset j = tcount cons offset k := by
          refine tcount_eq_of_no_trans cons offset k j (by omega) ?_
          intro x hx hx'
          rintro ⟨hx0, -⟩
          rcases Nat.eq_or_lt_of_le hx with heq | hlt
          · rw [heq] at hj3; simp_all
          · have := hk4 x hlt hx'; simp_all
        have hrec := ih k (n + 1) hk3 hk2 (by omega)
        simp only [measureIter, hscan, hscan2]
        rw [hrec]
        omega

/-- **C7** (confirmed): for every buffer and boundary, `Stemmer::measure`
returns exactly the number of completed (vowel-run, consonant-run) pairs
in the alternating block decomposition of `[0, offset)` under
`is_consonant`. -/
theorem c7_measure_eq_specMeasure (s : Stemmer) :
    s.measure = specMeasure s.isConsonant s.offset := by
  unfold Stemmer.measure specMeasure
  cases hscan : scanTo s.isConsonant s.offset false 0 with
  | none =>
    have hall := scanTo_none s.isConsonant s.offset false 0 hscan
    have hz : tcount s.isConsonant s.offset 0 = 0 := by
      refine tcount_zero s.isConsonant s.offset 0 ?_
      intro k _ hk'
      rintro ⟨hk0, -⟩
      have := hall k (by omega) (by omega)
      simp_all
    simp only [hscan, hz]
  | some i =>
    obtain ⟨-, hi2, hi3, hi4⟩ := scanTo_some s.isConsonant s.offset false 0 i hscan
    have heq := measureIter_eq_tcount s.isConsonant s.offset s.offset i 0 hi3 hi2 (by omega)
    have hch : tcount s.isConsonant s.offset 0 = tcount s.isConsonant s.offset i := by
      refine tcount_eq_of_no_trans s.isConsonant s.offset i 0 (by omega) ?_
      intro x _ hx'
      rintro ⟨hx0, -⟩
      have := hi4 x (by omega) hx'
      simp_all
    simp only [hscan]
    omega

/-! ### Preservation lemmas for the pipeline steps (claims C4, C6, C10) -/

theorem stepOk_refl (s : Stemmer) : stepOk s s :=
  ⟨rfl, le_rfl, fun h => h⟩

theorem stepOk_trans {s t u : Stemmer} (h1 : stepOk s t) (h2 : stepOk t u) :
    stepOk s u :=
  ⟨h2.1.trans h1.1, h2.2.1.trans h1.2.1, fun h => h2.2.2 (h1.2.2 h)⟩

/-- `stepOk` from the two raw facts (buffer untouched, length bounded). -/
theorem stepOk_mk {s t : Stemmer} (hb : t.bytes = s.bytes)
    (hl : t.bytesLength ≤ s.bytesLength) : stepOk s t :=
  ⟨by rw [hb], hl, fun hinv b hbmem => hinv b (hb ▸ hbmem)⟩

theorem writeAt_length :
    ∀ (rep l : List Nat) (pos : Nat), (writeAt l pos rep).length = l.length := by
  intro rep
  induction rep with
  | nil => intro l pos; rfl
  | cons b rest ih =>
    intro l pos
    rw [writeAt, ih, List.length_set]

theorem writeAt_mem :
    ∀ (rep l : List Nat) (pos : Nat) (x : Nat),
      x ∈ writeAt l pos rep → x ∈ l ∨ x ∈ rep := by
  intro rep
  induction rep with
  | nil => intro l pos x hx; exact Or.inl hx
  | cons b rest ih =>
    intro l pos x hx
    rw [writeAt] at hx
    rcases ih (l.set pos b) (pos + 1) x hx with hmem | hmem
    · rcases List.mem_or_eq_of_mem_set hmem with h1 | h1
      · exact Or.inl h1
      · exact Or.inr (by rw [h1]; exact List.mem_cons_self b rest)
    · exact Or.inr (List.mem_cons_of_mem b hmem)

theorem ends_length_le {s : Stemmer} {suf : List Nat} (h : s.ends suf = true) :
    suf.length ≤ s.bytesLength := by
  unfold Stemmer.ends at h
  by_cases hgt : suf.length > s.bytesLength
  · rw [if_pos hgt] at h
    exact absurd h (by simp)
  · omega

theorem setTo_facts {s : Stemmer} {rep : List Nat} {t : Stemmer}
    (h : s.setTo rep = some t) :
    t.bytes.length = s.bytes.length ∧ t.bytesLength = s.offset + rep.length ∧
      t.offset = s.offset ∧
      (lowerInv s → (∀ b ∈ rep, lowerByteOk b) → lowerInv t) := by
  unfold Stemmer.setTo at h
  split at h
  · obtain rfl : _ = t := by simpa using h
    refine ⟨writeAt_length rep s.bytes s.offset, rfl, rfl, ?_⟩
    intro hinv hrep x hx
    rcases writeAt_mem rep s.bytes s.offset x hx with h1 | h1
    · exact hinv x h1
    · exact hrep x h1
  · exact absurd h (by simp)

/-- `set_to` right after a successful `ends`/`update_offset` pair: the
buffer keeps its length, and the new live length is the old one with the
suffix swapped for the replacement. -/
theorem setTo_after_ends_facts {s : Stemmer} {suf rep : List Nat} {t : Stemmer}
    (hends : s.ends suf = true)
    (h : (s.updateOffset suf).setTo rep = some t) :
    t.bytes.length = s.bytes.length ∧
      t.bytesLength = s.bytesLength - suf.length + rep.length ∧
      suf.length ≤ s.bytesLength ∧
      (lowerInv s → (∀ b ∈ rep, lowerByteOk b) → lowerInv t) := by
  have hsuf := ends_length_le hends
  obtain ⟨h1, h2, h3, h4⟩ := setTo_facts h
  exact ⟨h1, h2, hsuf, h4⟩

/-- A replacement no longer than the matched suffix yields `stepOk`. -/
theorem replace_after_ends_stepOk {s : Stemmer} {suf rep : List Nat} {t : Stemmer}
    (h : (s.updateOffset suf).replace rep = some t)
    (hends : s.ends suf = true) (hlen : rep.length ≤ suf.length)
    (hrep : ∀ b ∈ rep, lowerByteOk b) : stepOk s t := by
  unfold Stemmer.replace at h
  split at h
  · obtain ⟨h1, h2, h3, h4⟩ := setTo_after_ends_facts hends h
    exact ⟨h1, by omega, fun hinv => h4 hinv hrep⟩
  · obtain rfl : _ = t := by simpa using h
    exact stepOk_mk rfl le_rfl

/-- `stepOk` version of `setTo_after_ends_facts`. -/
theorem setTo_after_ends_stepOk {s : Stemmer} {suf rep : List Nat} {t : Stemmer}
    (h : (s.updateOffset suf).setTo rep = some t)
    (hends : s.ends suf = true) (hlen : rep.length ≤ suf.length)
    (hrep : ∀ b ∈ rep, lowerByteOk b) : stepOk s t := by
  obtain ⟨h1, h2, h3, h4⟩ := setTo_after_ends_facts hends h
  exact ⟨h1, by omega, fun hinv => h4 hinv hrep⟩

set_option maxHeartbeats 1600000 in
theorem step1aPlural_stepOk {s t : Stemmer} (h : s.step1aPlural = some t) :
    stepOk s t := by
  simp only [Stemmer.step1aPlural] at h
  repeat' split at h
  all_goals
    first
    | exact Option.noConfusion h
    | (injection h with h2; subst h2; exact stepOk_mk rfl (Nat.sub_le _ _))
    | (injection h with h2; subst h2; exact stepOk_mk rfl le_rfl)
    | exact setTo_after_ends_stepOk h (by assumption) (by decide) (by decide)

/-- The growth analogue of `stepOk_mk`: the restoration part of step1ab
may lengthen the live buffer by at most one byte. -/
theorem grow_mk {s t : Stemmer} (hb : t.bytes = s.bytes)
    (hl : t.bytesLength ≤ s.bytesLength + 1) :
    t.bytes.length = s.bytes.length ∧ t.bytesLength ≤ s.bytesLength + 1 ∧
      (lowerInv s → lowerInv t) :=
  ⟨by rw [hb], hl, fun hinv b hbmem => hinv b (hb ▸ hbmem)⟩

/-- A `set_to` after `ends`/`update_offset` whose replacement exceeds the
suffix by at most one byte grows the live length by at most one. -/
theorem setTo_after_ends_grow {s : Stemmer} {suf rep : List Nat} {t : Stemmer}
    (h : (s.updateOffset suf).setTo rep = some t)
    (hends : s.ends suf = true) (hlen : rep.length ≤ suf.length + 1)
    (hrep : ∀ b ∈ rep, lowerByteOk b) :
    t.bytes.length = s.bytes.length ∧ t.bytesLength ≤ s.bytesLength + 1 ∧
      (lowerInv s → lowerInv t) := by
  obtain ⟨h1, h2, h3, h4⟩ := setTo_after_ends_facts hends h
  exact ⟨h1, by omega, fun hinv => h4 hinv hrep⟩

/-- A `set_to` at the committed end of the buffer (`offset =
bytes_length`) with a replacement of at most one byte. -/
theorem setTo_self_grow {s : Stemmer} {rep : List Nat} {t : Stemmer}
    (h : s.setTo rep = some t) (hoff : s.offset = s.bytesLength)
    (hlen : rep.length ≤ 1) (hrep : ∀ b ∈ rep, lowerByteOk b) :
    t.bytes.length = s.bytes.length ∧ t.bytesLength ≤ s.bytesLength + 1 ∧
      (lowerInv s → lowerInv t) := by
  obtain ⟨h1, h2, h3, h4⟩ := setTo_facts h
  exact ⟨h1, by omega, fun hinv => h4 hinv hrep⟩

set_option maxHeartbeats 1600000 in
/-- The restoration part of step1ab grows the live length by at most one
byte (it is called with the committed offset equal to the live length). -/
theorem step1bRestore_facts {s t : Stemmer} (hoff : s.offset = s.bytesLength)
    (h : s.step1bRestore = some t) :
    t.bytes.length = s.bytes.length ∧ t.bytesLength ≤ s.bytesLength + 1 ∧
      (lowerInv s → lowerInv t) := by
  simp only [Stemmer.step1bRestore] at h
  repeat' split at h
  all_goals
    first
    | exact Option.noConfusion h
    | (injection h with h2; subst h2; exact grow_mk rfl (Nat.le_succ _))
    | (injection h with h2; subst h2;
       exact grow_mk rfl (le_trans (Nat.sub_le _ _) (Nat.le_succ _)))
    | (injection h with h2; subst h2;
       exact grow_mk rfl (Nat.succ_le_succ (Nat.sub_le _ _)))
    | exact setTo_after_ends_grow h (by assumption) (by decide) (by decide)
    | exact setTo_self_grow h hoff (by decide) (by decide)

/-- Truncating to the committed offset of a removed `-ed`/`-ing` suffix
and then restoring can only shrink the live length (the restoration adds
at most one byte, the removed suffix had at least two). -/
theorem step1bPast_truncRestore {s : Stemmer} {suf : List Nat} {t : Stemmer}
    (h : Stemmer.step1bRestore
        { s.updateOffset suf with bytesLength := (s.updateOffset suf).offset } = some t)
    (hends : s.ends suf = true) (hsuf : 2 ≤ suf.length) : stepOk s t := by
  have hlen := ends_length_le hends
  obtain ⟨h1, h2, h3⟩ := step1bRestore_facts rfl h
  refine ⟨?_, ?_, fun hinv => h3 (fun b hb => hinv b hb)⟩
  · simpa [Stemmer.updateOffset] using h1
  · simp only [Stemmer.updateOffset] at h2
    omega

set_option maxHeartbeats 1600000 in
theorem step1bPast_stepOk {s t : Stemmer} (h : s.step1bPast = some t) :
    stepOk s t := by
  simp only [Stemmer.step1bPast] at h
  repeat' split at h
  all_goals
    first
    | exact Option.noConfusion h
    | (injection h with h2; subst h2; exact stepOk_mk rfl (Nat.sub_le _ _))
    | (injection h with h2; subst h2; exact stepOk_mk rfl le_rfl)
    | exact step1bPast_truncRestore h (by assumption) (by decide)
    | (exfalso; simp_all)

theorem step1ab_stepOk {s t : Stemmer} (h : s.step1ab = some t) : stepOk s t := by
  unfold Stemmer.step1ab at h
  rw [Option.bind_eq_some] at h
  obtain ⟨u, h1, h2⟩ := h
  exact stepOk_trans (step1aPlural_stepOk h1) (step1bPast_stepOk h2)

/-- Writing the byte `i` (105) anywhere in the buffer preserves `stepOk`. -/
theorem stepOk_setByte (s : Stemmer) (suf : List Nat) (j : Nat) :
    stepOk s { s.updateOffset suf with bytes := (s.updateOffset suf).bytes.set j 105 } := by
  refine ⟨List.length_set _ _ _, le_rfl, ?_⟩
  intro hinv b hb
  rcases List.mem_or_eq_of_mem_set hb with h1 | h1
  · exact hinv b h1
  · rw [h1]
    exact (by decide : lowerByteOk 105)

theorem step1c_stepOk {s t : Stemmer} (h : s.step1c = some t) : stepOk s t := by
  simp only [Stemmer.step1c] at h
  repeat' split at h
  all_goals
    first
    | exact Option.noConfusion h
    | (injection h with h2; subst h2; exact stepOk_setByte s sY _)
    | (injection h with h2; subst h2; exact stepOk_mk rfl le_rfl)

theorem stepPost_none (s : Stemmer) : stepPost s none :=
  fun _ ht => Option.noConfusion ht

theorem stepPost_some (s : Stemmer) : stepPost s (some s) := by
  intro t ht
  injection ht with h2
  subst h2
  exact stepOk_refl s

theorem stepPost_ite {s : Stemmer} {c : Prop} [Decidable c] {x y : Option Stemmer}
    (hx : stepPost s x) (hy : stepPost s y) : stepPost s (if c then x else y) := by
  split
  · exact hx
  · exact hy

/-- Sequencing through `Option.bind` preserves `stepPost`. -/
theorem stepPost_bind {α : Type} {s : Stemmer} {o : Option α} {f : α → Option Stemmer}
    (hf : ∀ a, stepPost s (f a)) : stepPost s (o.bind f) := by
  intro t ht
  rw [Option.bind_eq_some] at ht
  obtain ⟨a, _, ht⟩ := ht
  exact hf a t ht

/-- The shape of every rule of steps 2 and 3: on a successful `ends`,
commit the offset and `replace`; otherwise fall through. -/
theorem stepPost_tryReplace (suf rep : List Nat) {s : Stemmer} {k : Option Stemmer}
    (hlen : rep.length ≤ suf.length) (hrep : ∀ b ∈ rep, lowerByteOk b)
    (hk : stepPost s k) :
    stepPost s (if s.ends suf = true then (s.updateOffset suf).replace rep else k) := by
  by_cases he : s.ends suf = true
  · rw [if_pos he]
    intro t ht
    exact replace_after_ends_stepOk ht he hlen hrep
  · rw [if_neg he]
    exact hk

theorem step2_post (s : Stemmer) : stepPost s s.step2 := by
  unfold Stemmer.step2
  refine stepPost_bind fun i => stepPost_bind fun b => ?_
  refine stepPost_ite (stepPost_tryReplace sAtional sAte (by decide) (by decide)
    (stepPost_tryReplace sTional sTion (by decide) (by decide) (stepPost_some s))) ?_
  refine stepPost_ite (stepPost_tryReplace sEnci sEnce (by decide) (by decide)
    (stepPost_tryReplace sAnci sAnce (by decide) (by decide) (stepPost_some s))) ?_
  refine stepPost_ite (stepPost_tryReplace sIzer sIze (by decide) (by decide)
    (stepPost_some s)) ?_
  refine stepPost_ite (stepPost_tryReplace sBli sBle (by decide) (by decide)
    (stepPost_tryReplace sAlli sAl (by decide) (by decide)
      (stepPost_tryReplace sEntli sEnt (by decide) (by decide)
        (stepPost_tryReplace sEli sE (by decide) (by decide)
          (stepPost_tryReplace sOusli sOus (by decide) (by decide)
            (stepPost_some s)))))) ?_
  refine stepPost_ite (stepPost_tryReplace sIzation sIze (by decide) (by decide)
    (stepPost_tryReplace sAtion sAte (by decide) (by decide)
      (stepPost_tryReplace sAtor sAte (by decide) (by decide)
        (stepPost_some s)))) ?_
  refine stepPost_ite (stepPost_tryReplace sAlism sAl (by decide) (by decide)
    (stepPost_tryReplace sIveness sIve (by decide) (by decide)
      (stepPost_tryReplace sFulness sFul (by decide) (by decide)
        (stepPost_tryReplace sOusness sOus (by decide) (by decide)
          (stepPost_some s))))) ?_
  refine stepPost_ite (stepPost_tryReplace sAliti sAl (by decide) (by decide)
    (stepPost_tryReplace sIviti sIve (by decide) (by decide)
      (stepPost_tryReplace sBiliti sBle (by decide) (by decide)
        (stepPost_some s)))) ?_
  refine stepPost_ite (stepPost_tryReplace sLogi sLog (by decide) (by decide)
    (stepPost_some s)) ?_
  exact stepPost_some s

theorem step2_stepOk {s t : Stemmer} (h : s.step2 = some t) : stepOk s t :=
  step2_post s t h

theorem step3_post (s : Stemmer) : stepPost s s.step3 := by
  unfold Stemmer.step3
  refine stepPost_bind fun i => stepPost_bind fun b => ?_
  refine stepPost_ite (stepPost_tryReplace sIcate sIc (by decide) (by decide)
    (stepPost_tryReplace sAtive sNil (by decide) (by decide)
      (stepPost_tryReplace sAlize sAl (by decide) (by decide)
        (stepPost_some s)))) ?_
  refine stepPost_ite (stepPost_tryReplace sIciti sIc (by decide) (by decide)
    (stepPost_some s)) ?_
  refine stepPost_ite (stepPost_tryReplace sIcal sIc (by decide) (by decide)
    (stepPost_tryReplace sFul sNil (by decide) (by decide)
      (stepPost_some s))) ?_
  refine stepPost_ite (stepPost_tryReplace sNess sNil (by decide) (by decide)
    (stepPost_some s)) ?_
  exact stepPost_some s

theorem step3_stepOk {s t : Stemmer} (h : s.step3 = some t) : stepOk s t :=
  step3_post s t h

theorem matchOk_ite {s : Stemmer} {c : Prop} [Decidable c] {x y : Stemmer × Bool}
    (hx : matchOk s x) (hy : matchOk s y) : matchOk s (if c then x else y) := by
  split
  · exact hx
  · exact hy

theorem matchOk_noMatch (s : Stemmer) : matchOk s (s, false) :=
  ⟨rfl, rfl, fun hf => absurd hf Bool.false_ne_true⟩

theorem matchOk_offsetNoMatch (s : Stemmer) (suf : List Nat) :
    matchOk s (s.updateOffset suf, false) :=
  ⟨rfl, rfl, fun hf => absurd hf Bool.false_ne_true⟩

theorem matchOk_commit (s : Stemmer) (suf : List Nat) :
    matchOk s (s.updateOffset suf, true) :=
  ⟨rfl, rfl, fun _ => Nat.sub_le _ _⟩

/-- The shape of every ordinary rule of step4. -/
theorem matchOk_tryMatch {s : Stemmer} {suf : List Nat} {k : Stemmer × Bool}
    (hk : matchOk s k) :
    matchOk s (if s.ends suf = true then (s.updateOffset suf, true) else k) :=
  matchOk_ite (matchOk_commit s suf) hk

/-- The suffix match of step4 never touches the buffer or the live
length, and a successful match commits an offset within the live length. -/
theorem step4Match_facts (s : Stemmer) (b : Nat) : matchOk s (s.step4Match b) := by
  unfold Stemmer.step4Match
  refine matchOk_ite (matchOk_tryMatch (matchOk_noMatch s)) ?_
  refine matchOk_ite (matchOk_tryMatch (matchOk_tryMatch (matchOk_noMatch s))) ?_
  refine matchOk_ite (matchOk_tryMatch (matchOk_noMatch s)) ?_
  refine matchOk_ite (matchOk_tryMatch (matchOk_noMatch s)) ?_
  refine matchOk_ite (matchOk_tryMatch (matchOk_tryMatch (matchOk_noMatch s))) ?_
  refine matchOk_ite (matchOk_tryMatch (matchOk_tryMatch (matchOk_tryMatch
    (matchOk_tryMatch (matchOk_noMatch s))))) ?_
  refine matchOk_ite (matchOk_ite
      (matchOk_ite (matchOk_commit s sIon) (matchOk_offsetNoMatch s sIon))
      (matchOk_tryMatch (matchOk_noMatch s))) ?_
  refine matchOk_ite (matchOk_tryMatch (matchOk_noMatch s)) ?_
  refine matchOk_ite (matchOk_tryMatch (matchOk_tryMatch (matchOk_noMatch s))) ?_
  refine matchOk_ite (matchOk_tryMatch (matchOk_noMatch s)) ?_
  refine matchOk_ite (matchOk_tryMatch (matchOk_noMatch s)) ?_
  refine matchOk_ite (matchOk_tryMatch (matchOk_noMatch s)) ?_
  exact matchOk_noMatch s

theorem step4_truncate_stepOk {s t : Stemmer} {b : Nat}
    (hc : (s.step4Match b).2 = true ∧ (s.step4Match b).1.measure > 1)
    (h2 : ({ (s.step4Match b).1 with bytesLength := (s.step4Match b).1.offset }) = t) :
    stepOk s t := by
  obtain ⟨hbytes, hbl, hoff⟩ := step4Match_facts s b
  subst h2
  exact stepOk_mk hbytes (hoff hc.1)

theorem step4_nochange_stepOk {s t : Stemmer} {b : Nat}
    (h2 : (s.step4Match b).1 = t) : stepOk s t := by
  obtain ⟨hbytes, hbl, hoff⟩ := step4Match_facts s b
  subst h2
  exact stepOk_mk hbytes (le_of_eq hbl)

set_option maxHeartbeats 1600000 in
theorem step4_stepOk {s t : Stemmer} (h : s.step4 = some t) : stepOk s t := by
  simp only [Stemmer.step4] at h
  repeat' split at h
  all_goals
    first
    | exact Option.noConfusion h
    | (injection h with h2; exact step4_truncate_stepOk (by assumption) h2)
    | (injection h with h2; exact step4_nochange_stepOk h2)

set_option maxHeartbeats 1600000 in
theorem step5_stepOk {s t : Stemmer} (h : s.step5 = some t) : stepOk s t := by
  simp only [Stemmer.step5] at h
  repeat' split at h
  all_goals
    first
    | exact Option.noConfusion h
    | (injection h with h2; subst h2; exact stepOk_mk rfl le_rfl)
    | (injection h with h2; subst h2; exact stepOk_mk rfl (Nat.sub_le _ _))
    | (injection h with h2; subst h2;
       exact stepOk_mk rfl (le_trans (Nat.sub_le _ _) (Nat.sub_le _ _)))

/-! ### The pipeline as a whole (claims C4, C6, C10) -/

/-- ASCII lowercasing produces a lowercase-ASCII byte. -/
theorem lowerByteOk_toLowerByte {a : Nat} (ha : a < 128) :
    lowerByteOk (toLowerByte a) := by
  by_cases hc : 65 ≤ a ∧ a ≤ 90
  · have hx : toLowerByte a = a + 32 := if_pos hc
    rw [hx]
    refine ⟨by omega, ?_⟩
    show (if 65 ≤ a + 32 ∧ a + 32 ≤ 90 then a + 32 + 32 else a + 32) = a + 32
    rw [if_neg (by omega)]
  · have hx : toLowerByte a = a := if_neg hc
    rw [hx]
    refine ⟨ha, ?_⟩
    show (if 65 ≤ a ∧ a ≤ 90 then a + 32 else a) = a
    rw [if_neg hc]

/-- `Stemmer::new` on an accepted word: the buffer is the lowercased word
with full live length, offset 0, and lowercase-ASCII content. -/
theorem new_ok_facts {word : List Nat} {s0 : Stemmer}
    (h : Stemmer.new word = Except.ok s0) :
    s0.bytes.length = word.length ∧ s0.bytesLength = word.length ∧
      s0.offset = 0 ∧ lowerInv s0 := by
  unfold Stemmer.new at h
  split at h
  · rename_i hascii
    injection h with h2
    subst h2
    refine ⟨by simp, by simp, rfl, ?_⟩
    intro b hb
    rw [List.mem_map] at hb
    obtain ⟨a, ha, rfl⟩ := hb
    have halt : a < 128 := by
      rw [isAsciiWord, List.all_eq_true] at hascii
      simpa using hascii a ha
    exact lowerByteOk_toLowerByte halt
  · exact absurd h (by simp)

/-- The five steps in sequence satisfy `stepOk`. -/
theorem pipeline_chain_stepOk {s0 s6 : Stemmer}
    (h : ((((s0.step1ab.bind Stemmer.step1c).bind Stemmer.step2).bind
        Stemmer.step3).bind Stemmer.step4).bind Stemmer.step5 = some s6) :
    stepOk s0 s6 := by
  rw [Option.bind_eq_some] at h
  obtain ⟨s5, h, h5⟩ := h
  rw [Option.bind_eq_some] at h
  obtain ⟨s4, h, h4⟩ := h
  rw [Option.bind_eq_some] at h
  obtain ⟨s3, h, h3⟩ := h
  rw [Option.bind_eq_some] at h
  obtain ⟨s2, h, h2⟩ := h
  rw [Option.bind_eq_some] at h
  obtain ⟨s1, h1, hc⟩ := h
  exact stepOk_trans (step1ab_stepOk h1) (stepOk_trans (step1c_stepOk hc)
    (stepOk_trans (step2_stepOk h2) (stepOk_trans (step3_stepOk h3)
      (stepOk_trans (step4_stepOk h4) (step5_stepOk h5)))))

/-- **C10** (confirmed): whenever `stem::get` returns `Ok`, the output is
no longer than the input word — no pipeline step makes the word grow past
the original length. -/
theorem c10_output_no_longer_than_input (w out : List Nat)
    (h : stemGet w = some (Except.ok out)) : out.length ≤ w.length := by
  unfold stemGet at h
  split at h
  · split at h
    · injection h with h2
      exact absurd h2.symm (by simp)
    · rename_i s0 hnew
      rw [Option.map_eq_some'] at h
      obtain ⟨s6, hchain, hout⟩ := h
      injection hout with hout
      obtain ⟨hlen0, hbl0, -, -⟩ := new_ok_facts hnew
      obtain ⟨hlen6, hbl6, -⟩ := pipeline_chain_stepOk hchain
      subst hout
      rw [Stemmer.result, List.length_take]
      omega
  · injection h with h2
    injection h2 with h3
    subst h3
    exact le_rfl

/-- Witness for **C10** at the word "pencils". -/
theorem c10_output_no_longer_than_input_witness :
    stemGet wPencils = some (Except.ok wPencil) ∧ wPencil.length ≤ wPencils.length :=
  ⟨by decide, c10_output_no_longer_than_input wPencils wPencil (by decide)⟩

/-- **C6** (confirmed): when `stem::get` returns `Ok` on a word longer
than 2 bytes, every byte of the output is lowercase ASCII (in the ASCII
range and fixed by ASCII lowercasing). -/
theorem c6_output_lowercase_ascii (w out : List Nat) (hlen : 2 < w.length)
    (h : stemGet w = some (Except.ok out)) : ∀ b ∈ out, lowerByteOk b := by
  unfold stemGet at h
  rw [if_pos hlen] at h
  split at h
  · injection h with h2
    exact absurd h2.symm (by simp)
  · rename_i s0 hnew
    rw [Option.map_eq_some'] at h
    obtain ⟨s6, hchain, hout⟩ := h
    injection hout with hout
    obtain ⟨-, -, -, hinv0⟩ := new_ok_facts hnew
    obtain ⟨-, -, hinv⟩ := pipeline_chain_stepOk hchain
    subst hout
    intro b hb
    rw [Stemmer.result] at hb
    exact hinv hinv0 b (List.take_subset _ _ hb)

/-- Witness for **C6** at the word "caresses". -/
theorem c6_output_lowercase_ascii_witness :
    (2 < wCaresses.length ∧ stemGet wCaresses = some (Except.ok wCaress)) ∧
      ∀ b ∈ wCaress, lowerByteOk b :=
  ⟨⟨by decide, by decide⟩,
    c6_output_lowercase_ascii wCaresses wCaress (by decide) (by decide)⟩

/-- Every state reached by running a list of `stepOk`-preserving steps
keeps the live length within the vector length. -/
theorem statesFrom_capacity :
    ∀ (fs : List (Stemmer → Option Stemmer)) (s0 : Stemmer),
      (∀ f ∈ fs, ∀ s t, f s = some t → stepOk s t) →
      s0.bytesLength ≤ s0.bytes.length →
      ∀ s ∈ statesFrom s0 fs, s.bytesLength ≤ s.bytes.length := by
  intro fs
  induction fs with
  | nil =>
    intro s0 _ h0 s hs
    rw [statesFrom] at hs
    rw [List.mem_singleton] at hs
    subst hs
    exact h0
  | cons f fs ih =>
    intro s0 hfs h0 s hs
    rw [statesFrom, List.mem_cons] at hs
    rcases hs with rfl | hs
    · exact h0
    · cases hf : f s0 with
      | none =>
        rw [hf] at hs
        exact absurd hs (List.not_mem_nil s)
      | some u =>
        rw [hf] at hs
        obtain ⟨hlen, hbl, -⟩ := hfs f (List.mem_cons_self f fs) s0 u hf
        exact ih u (fun g hg => hfs g (List.mem_cons_of_mem f hg)) (by omega) s hs

/-- Each of the five pipeline steps satisfies `stepOk`. -/
theorem pipelineSteps_stepOk :
    ∀ f ∈ pipelineSteps, ∀ s t, f s = some t → stepOk s t := by
  intro f hf
  simp only [pipelineSteps, List.mem_cons, List.not_mem_nil, or_false] at hf
  rcases hf with rfl | rfl | rfl | rfl | rfl | rfl
  · exact fun s t h => step1ab_stepOk h
  · exact fun s t h => step1c_stepOk h
  · exact fun s t h => step2_stepOk h
  · exact fun s t h => step3_stepOk h
  · exact fun s t h => step4_stepOk h
  · exact fun s t h => step5_stepOk h

/-- **C4** amended: in every state observable at a pipeline step boundary
the live length stays within the underlying vector (`length ≤ capacity`);
the other half of the claimed invariant, `boundary ≤ length`, fails
transiently (see the counterexample). -/
theorem c4_amended_capacity_invariant (w : List Nat) (s : Stemmer)
    (hs : s ∈ pipelineStates w) : s.bytesLength ≤ s.bytes.length := by
  unfold pipelineStates at hs
  cases hnew : Stemmer.new w with
  | error e =>
    rw [hnew] at hs
    exact absurd hs (List.not_mem_nil s)
  | ok s0 =>
    rw [hnew] at hs
    obtain ⟨hlen, hbl, -, -⟩ := new_ok_facts hnew
    exact statesFrom_capacity pipelineSteps s0 pipelineSteps_stepOk (by omega) s hs

/-- Witness for the amended **C4** at the initial state for "pencils". -/
theorem c4_amended_capacity_invariant_witness :
    ((⟨wPencils, 7, 0⟩ : Stemmer) ∈ pipelineStates wPencils) ∧
      (⟨wPencils, 7, 0⟩ : Stemmer).bytesLength ≤ (⟨wPencils, 7, 0⟩ : Stemmer).bytes.length :=
  ⟨by decide, c4_amended_capacity_invariant wPencils ⟨wPencils, 7, 0⟩ (by decide)⟩

/-! ### Termination structure (claim C9) -/

/-- The recursion of `is_consonant` through the context-sensitive `y`
strictly decreases the index, so any fuel above the index suffices. -/
theorem isConsonantFuel_sufficient (s : Stemmer) :
    ∀ fuel index, index < fuel →
      isConsonantFuel s fuel index = some (s.isConsonant index) := by
  intro fuel
  induction fuel with
  | zero => intro index h; omega
  | succ fuel ih =>
    intro index _
    cases index with
    | zero =>
      simp only [isConsonantFuel, Stemmer.isConsonant]
      split
      · rfl
      · split <;> rfl
    | succ i =>
      simp only [isConsonantFuel, Stemmer.isConsonant]
      split
      · rfl
      · split
        · rw [ih i (by omega)]
          rfl
        · rfl

/-- **C9** (confirmed): the termination structure of the stemmer.  The
`is_consonant` recursion is well-founded — the index strictly decreases,
so a fuelled interpreter with fuel `index + 1` (bounded by the word
length at every call site) computes it; and the `measure`/`has_vowel`
scans strictly advance: a successful scan lands strictly inside
`[index, offset)`.  The five-step pipeline itself is the single forward
pass visible in `stemGet`. -/
theorem c9_termination_structure :
    (∀ (s : Stemmer) (index : Nat),
        isConsonantFuel s (index + 1) index = some (s.isConsonant index)) ∧
      (∀ (cons : Nat → Bool) (offset : Nat) (target : Bool) (index j : Nat),
        scanTo cons offset target index = some j → index ≤ j ∧ j < offset) :=
  ⟨fun s index => isConsonantFuel_sufficient s (index + 1) index (Nat.lt_succ_self index),
    fun cons offset target index j h =>
      ⟨(scanTo_some cons offset target index j h).1,
        (scanTo_some cons offset target index j h).2.1⟩⟩

/-- Witness for **C9**: the scan over the buffer "ba" finds the vowel at
position 1, strictly inside the boundary. -/
theorem c9_termination_structure_witness :
    scanTo (Stemmer.isConsonant ⟨[98, 97], 2, 0⟩) 2 false 0 = some 1 ∧
      (0 ≤ 1 ∧ 1 < 2) :=
  ⟨by decide,
    c9_termination_structure.2 (Stemmer.isConsonant ⟨[98, 97], 2, 0⟩) 2 false 0 1 (by decide)⟩

end Rnltk
